import Mathlib

/-
Verification of the SnackGPT recipe pipeline (src/app.py) against its
natural-language specification.

The Python program delegates all generation to an external model endpoint;
the local code builds prompt strings, parses the model's textual JSON
replies with `json.loads` (silently defaulting on failure), and appends
saved recipes to a JSON-array file with `json.load` / `json.dump`.

Shallow embedding notes:
- JSON values are modelled by `JValue`.  JSON numbers are modelled as
  integers only; float literals (and Python floats generally) are outside
  the model, so a text containing a float literal counts as unparseable.
- `json.loads` is modelled by `pyLoads`, a fuel-based recursive-descent
  parser (fuel `length + 1` is always sufficient since every nesting level
  consumes at least one character; exhaustion corresponds to Python's
  recursion limit).  Python object semantics (duplicate keys: last value
  wins, first position kept) are modelled by `dedupPairs`.
- `json.dump` is modelled by `dump`.  The source passes `indent=4`; the
  model prints compact separators instead, which differs from the source
  only in JSON-insignificant whitespace.  `ensure_ascii` escaping of
  non-ASCII characters is likewise elided: strings are printed with only
  the mandatory escapes, which round-trip through `pyLoads`.
- `model.generate_content` is modelled by a function argument
  `gen : String → Except ServiceError GenResponse`; a `GenResponse` whose
  `text` is `none` models the library raising when `.text` is accessed on
  a response with no usable text.
-/

inductive JValue where
  | null : JValue
  | bool : Bool → JValue
  | num : Int → JValue
  | str : String → JValue
  | arr : List JValue → JValue
  | obj : List (String × JValue) → JValue
deriving Repr

/-- Predicate that holds exactly for JSON objects (Python `dict` results). -/
def isObjVal : JValue → Bool
  | .obj _ => true
  | _ => false

/-- Python `dict.get field` on an association list with unique keys. -/
def lookupField : List (String × JValue) → String → Option JValue
  | [], _ => none
  | (k, v) :: rest, f => if k = f then some v else lookupField rest f

/-- Assigning `k ↦ v` in a Python dict: replace in place, else append. -/
def objInsert : List (String × JValue) → String → JValue → List (String × JValue)
  | [], k, v => [(k, v)]
  | (k', v') :: rest, k, v =>
    if k' = k then (k', v) :: rest else (k', v') :: objInsert rest k v

/-- Folding parsed key/value pairs into a Python dict (later values win,
first position kept), as `json.loads` builds objects. -/
def dedupAux : List (String × JValue) → List (String × JValue) → List (String × JValue)
  | acc, [] => acc
  | acc, (k, v) :: rest => dedupAux (objInsert acc k v) rest

def dedupPairs (ps : List (String × JValue)) : List (String × JValue) :=
  dedupAux [] ps

/-- Key `k` does not occur among the keys of the list. -/
def freshKey (k : String) : List (String × JValue) → Bool
  | [] => true
  | (k', _) :: rest => if k' = k then false else freshKey k rest

/-- All keys of the association list are distinct. -/
def keysOk : List (String × JValue) → Bool
  | [] => true
  | (k, _) :: rest => freshKey k rest && keysOk rest

-- Characters used by the JSON grammar.  Braces are built from code points.
def lbrace : Char := Char.ofNat 123
def rbrace : Char := Char.ofNat 125

def isJsonWs (c : Char) : Bool :=
  c.toNat = 32 || c.toNat = 9 || c.toNat = 10 || c.toNat = 13

def skipWs : List Char → List Char
  | [] => []
  | c :: rest => if isJsonWs c then skipWs rest else c :: rest

def isDigitChar (c : Char) : Bool :=
  48 ≤ c.toNat && c.toNat ≤ 57

def digChar (d : Nat) : Char := Char.ofNat (48 + d)

def digitsToNat (ds : List Char) : Nat :=
  ds.foldl (fun a c => 10 * a + (c.toNat - 48)) 0

/-- Decimal digits of `n`, most significant first (`str(n)` for a Python
non-negative int).  Fuel-based so the kernel can evaluate it; fuel `n + 1`
always suffices. -/
def natDigitsAux : Nat → Nat → List Char
  | 0, _ => []
  | fuel + 1, n =>
    if n < 10 then [digChar n] else natDigitsAux fuel (n / 10) ++ [digChar (n % 10)]

def natStr (n : Nat) : List Char := natDigitsAux (n + 1) n

/-- Characters of `str(n)` for a Python int. -/
def intData (n : Int) : List Char :=
  if n < 0 then '-' :: natStr n.natAbs else natStr n.toNat

def hexDig (d : Nat) : Char :=
  if d < 10 then digChar d else Char.ofNat (87 + d)

def hexDigVal (c : Char) : Option Nat :=
  if 48 ≤ c.toNat && c.toNat ≤ 57 then some (c.toNat - 48)
  else if 97 ≤ c.toNat && c.toNat ≤ 102 then some (c.toNat - 87)
  else if 65 ≤ c.toNat && c.toNat ≤ 70 then some (c.toNat - 55)
  else none

/-- JSON string-body lexer: consumes characters up to the closing quote,
decoding escapes as Python's `json.loads` does (strict mode: raw control
characters are rejected).  Lone `\uXXXX` surrogate escapes are rejected
since Lean characters are scalar values. -/
def parseStrBody : List Char → Option (List Char × List Char)
  | [] => none
  | c :: rest =>
    if c = '"' then some ([], rest)
    else if c = '\\' then
      match rest with
      | [] => none
      | e :: rest2 =>
        if e = '"' then (parseStrBody rest2).map fun p => ('"' :: p.1, p.2)
        else if e = '\\' then (parseStrBody rest2).map fun p => ('\\' :: p.1, p.2)
        else if e = '/' then (parseStrBody rest2).map fun p => ('/' :: p.1, p.2)
        else if e = 'b' then (parseStrBody rest2).map fun p => ('\x08' :: p.1, p.2)
        else if e = 'f' then (parseStrBody rest2).map fun p => ('\x0c' :: p.1, p.2)
        else if e = 'n' then (parseStrBody rest2).map fun p => ('\n' :: p.1, p.2)
        else if e = 'r' then (parseStrBody rest2).map fun p => ('\r' :: p.1, p.2)
        else if e = 't' then (parseStrBody rest2).map fun p => ('\t' :: p.1, p.2)
        else if e = 'u' then
          match rest2 with
          | h1 :: h2 :: h3 :: h4 :: rest3 =>
            match hexDigVal h1, hexDigVal h2, hexDigVal h3, hexDigVal h4 with
            | some a, some b, some c3, some d =>
              let code := 4096 * a + 256 * b + 16 * c3 + d
              if code < 55296 then
                (parseStrBody rest3).map fun p => (Char.ofNat code :: p.1, p.2)
              else if 57344 ≤ code then
                (parseStrBody rest3).map fun p => (Char.ofNat code :: p.1, p.2)
              else none
            | _, _, _, _ => none
          | _ => none
        else none
    else if c.toNat < 32 then none
    else (parseStrBody rest).map fun p => (c :: p.1, p.2)

/-- JSON integer lexer (Python grammar: optional single leading zero;
fraction/exponent suffixes would be floats, which are outside the model). -/
def parseNatNum (input : List Char) : Option (Nat × List Char) :=
  match input.takeWhile isDigitChar with
  | [] => none
  | d :: ds =>
    if d = '0' ∧ ds ≠ [] then none
    else some (digitsToNat (d :: ds), input.drop (d :: ds).length)

/-- Comma-separated JSON array elements up to the closing bracket, with the
element parser passed as an argument (`p` is the value parser at the
enclosing fuel). -/
def parseItemsLoop (p : List Char → Option (JValue × List Char)) :
    Nat → List Char → Option (List JValue × List Char)
  | 0, _ => none
  | g + 1, input =>
    match p input with
    | none => none
    | some (v, rest) =>
      match skipWs rest with
      | ',' :: rest2 =>
        (parseItemsLoop p g rest2).map fun q => (v :: q.1, q.2)
      | ']' :: rest2 => some ([v], rest2)
      | _ => none

/-- Comma-separated JSON object members up to the closing brace. -/
def parseMembersLoop (p : List Char → Option (JValue × List Char)) :
    Nat → List Char → Option (List (String × JValue) × List Char)
  | 0, _ => none
  | g + 1, input =>
    match skipWs input with
    | [] => none
    | c :: rest =>
      if c = '"' then
        match parseStrBody rest with
        | none => none
        | some (kcs, rest2) =>
          match skipWs rest2 with
          | ':' :: rest3 =>
            match p rest3 with
            | none => none
            | some (v, rest4) =>
              match skipWs rest4 with
              | ',' :: rest5 =>
                (parseMembersLoop p g rest5).map fun q => ((⟨kcs⟩, v) :: q.1, q.2)
              | d :: rest5 =>
                if d = rbrace then some ([(⟨kcs⟩, v)], rest5) else none
              | [] => none
          | _ => none
      else none

/-- JSON value parser (the core of `json.loads`).  Fuel is spent once per
nesting level; `input.length + 1` is always enough. -/
def parseVal : Nat → List Char → Option (JValue × List Char)
  | 0, _ => none
  | f + 1, input =>
    match skipWs input with
    | [] => none
    | c :: rest =>
      if c = 'n' then
        match rest with
        | 'u' :: 'l' :: 'l' :: r => some (JValue.null, r)
        | _ => none
      else if c = 't' then
        match rest with
        | 'r' :: 'u' :: 'e' :: r => some (JValue.bool true, r)
        | _ => none
      else if c = 'f' then
        match rest with
        | 'a' :: 'l' :: 's' :: 'e' :: r => some (JValue.bool false, r)
        | _ => none
      else if c = '"' then
        match parseStrBody rest with
        | some (cs, r) => some (JValue.str ⟨cs⟩, r)
        | none => none
      else if c = '[' then
        match skipWs rest with
        | [] => none
        | d :: rest2 =>
          if d = ']' then some (JValue.arr [], rest2)
          else
            match parseItemsLoop (parseVal f) (rest2.length + 2) (d :: rest2) with
            | some (vs, r) => some (JValue.arr vs, r)
            | none => none
      else if c = lbrace then
        match skipWs rest with
        | [] => none
        | d :: rest2 =>
          if d = rbrace then some (JValue.obj [], rest2)
          else
            match parseMembersLoop (parseVal f) (rest2.length + 2) (d :: rest2) with
            | some (ps, r) => some (JValue.obj (dedupPairs ps), r)
            | none => none
      else if c = '-' then
        match parseNatNum rest with
        | some (m, r) => some (JValue.num (-(m : Int)), r)
        | none => none
      else if isDigitChar c then
        match parseNatNum (c :: rest) with
        | some (m, r) => some (JValue.num (m : Int), r)
        | none => none
      else none

/-- Model of `json.loads`: parse one JSON value and require only whitespace after it. -/
def pyLoads (s : String) : Option JValue :=
  match parseVal (s.data.length + 1) s.data with
  | some (v, rest) => if skipWs rest = [] then some v else none
  | none => none

/-- Escaping of one string character as `json.dump` writes it (mandatory
escapes only; see the header note on `ensure_ascii`). -/
def escChar (c : Char) : List Char :=
  if c = '"' then ['\\', '"']
  else if c = '\\' then ['\\', '\\']
  else if c = '\n' then ['\\', 'n']
  else if c = '\t' then ['\\', 't']
  else if c = '\r' then ['\\', 'r']
  else if c = '\x08' then ['\\', 'b']
  else if c = '\x0c' then ['\\', 'f']
  else if c.toNat < 32 then
    ['\\', 'u', '0', '0', hexDig (c.toNat / 16), hexDig (c.toNat % 16)]
  else [c]

def escList : List Char → List Char
  | [] => []
  | c :: cs => escChar c ++ escList cs

def dumpKey (k : String) : List Char :=
  '"' :: escList k.data ++ '"' :: ':' :: ' ' :: []

def dumpItemsF (d : JValue → List Char) : List JValue → List Char
  | [] => []
  | [x] => d x
  | x :: xs => d x ++ ',' :: ' ' :: dumpItemsF d xs

def dumpMembersF (d : JValue → List Char) : List (String × JValue) → List Char
  | [] => []
  | [(k, v)] => dumpKey k ++ d v
  | (k, v) :: kvs => dumpKey k ++ d v ++ ',' :: ' ' :: dumpMembersF d kvs

-- `json.dump` character output (`dumpItems`/`dumpMembers` serialize a
-- non-empty element list, carried as head + tail).
mutual

def dumpData : JValue → List Char
  | .null => "null".data
  | .bool true => "true".data
  | .bool false => "false".data
  | .num n => intData n
  | .str s => '"' :: escList s.data ++ ['"']
  | .arr [] => ['[', ']']
  | .arr (x :: xs) => '[' :: dumpItems x xs ++ [']']
  | .obj [] => [lbrace, rbrace]
  | .obj (kv :: kvs) => lbrace :: dumpMembers kv kvs ++ [rbrace]
termination_by v => sizeOf v

def dumpItems : JValue → List JValue → List Char
  | x, [] => dumpData x
  | x, y :: ys => dumpData x ++ ',' :: ' ' :: dumpItems y ys
termination_by x xs => sizeOf (x :: xs)

def dumpMembers : (String × JValue) → List (String × JValue) → List Char
  | (k, v), [] => dumpKey k ++ dumpData v
  | (k, v), kv :: kvs => dumpKey k ++ dumpData v ++ ',' :: ' ' :: dumpMembers kv kvs
termination_by kv kvs => sizeOf (kv :: kvs)

end

/-- The file text `json.dump` produces for `v` (modulo the `indent=4`
whitespace, which `pyLoads` skips anyway). -/
def dump (v : JValue) : String := ⟨dumpData v⟩

-- Well-formedness: every object in the value has distinct keys.  Values
-- produced by `pyLoads` are always well-formed.
mutual

def wf : JValue → Bool
  | .arr xs => wfItems xs
  | .obj kvs => keysOk kvs && wfMembers kvs
  | _ => true
termination_by v => sizeOf v

def wfItems : List JValue → Bool
  | [] => true
  | x :: xs => wf x && wfItems xs
termination_by xs => sizeOf xs

def wfMembers : List (String × JValue) → Bool
  | [] => true
  | (_, v) :: kvs => wf v && wfMembers kvs
termination_by kvs => sizeOf kvs

end

-- -------------------------------------------------------------------------
-- The program itself (src/app.py), over the JSON model.

/-- Python `", ".join(...)`. -/
def pyJoin (sep : String) : List String → String
  | [] => ""
  | [s] => s
  | s :: rest => s ++ sep ++ pyJoin sep rest

def isPySpace (c : Char) : Bool :=
  c.toNat = 32 || c.toNat = 9 || c.toNat = 10 || c.toNat = 13 || c.toNat = 11 || c.toNat = 12

/-- Python `str.strip()` (ASCII whitespace; exotic Unicode spaces that
Python would also strip are outside the model). -/
def pyStrip (s : String) : String :=
  ⟨((s.data.dropWhile isPySpace).reverse.dropWhile isPySpace).reverse⟩

/-- The spec's `parseField(responseText, fieldName, defaultValue)` — the
`try: result = json.loads(response.text.strip()); return result.get(field, [])`
pattern of `normalize_ingredients` and `suggest_dishes`.  The blanket
`except: return []` coincides with the `.get` default at both call sites,
so any failure — malformed JSON, or a non-dict top level making `.get`
raise `AttributeError` — yields the default. -/
def parseField (responseText fieldName : String) (defaultValue : JValue) : JValue :=
  match pyLoads (pyStrip responseText) with
  | some (JValue.obj kvs) => (lookupField kvs fieldName).getD defaultValue
  | _ => defaultValue

/-- The `generate_recipe` parse step: return the entire parsed JSON value
(whatever its shape), or the default on parse failure. -/
def parseWhole (responseText : String) (defaultValue : JValue) : JValue :=
  match pyLoads (pyStrip responseText) with
  | some v => v
  | none => defaultValue

/-- The generation endpoint failing outright: unreachable, or the request
rejected (auth/quota).  Such failures escape `model.generate_content`. -/
inductive ServiceError where
  | unreachable : ServiceError
  | rejected : ServiceError
deriving DecidableEq, Repr

/-- A response object; `text = none` models the client library raising when
`.text` is accessed on a response carrying no usable text. -/
structure GenResponse where
  text : Option String

/-- Exceptions of the persistence path. -/
inductive PyErr where
  | valueError : PyErr
  | attributeError : PyErr
deriving DecidableEq, Repr

def buildNormalizePrompt (ingredients_text : String) : String :=
  "\n    Normalize the following user-provided ingredients into a clean, standardized list.\n    Handle ambiguities, synonyms, and quantities. Output as JSON with key \"normalized_ingredients\" containing a list of strings.\n\n    Ingredients: "
    ++ ingredients_text
    ++ "\n\n    Example output:\n    \x7b\n        \"normalized_ingredients\": [\"2 cups flour\", \"1 kg chicken breast\", \"3 onions\"]\n    \x7d\n    "

def buildSuggestPrompt (normalized_ingredients : List String) : String :=
  "\n    Based on these ingredients: "
    ++ pyJoin ", " normalized_ingredients
    ++ "\n    Suggest 3-5 dish ideas that can be made with these or similar ingredients.\n    For each dish, provide a brief description and why it fits.\n    Output as JSON with key \"dishes\" containing a list of objects, each with \"name\" and \"description\".\n\n    Example output:\n    \x7b\n        \"dishes\": [\n            \x7b\n                \"name\": \"Chicken Stir Fry\",\n                \"description\": \"A quick stir fry using chicken and vegetables.\"\n            \x7d\n        ]\n    \x7d\n    "

def buildGeneratePrompt (dish_name : String) (normalized_ingredients : List String)
    (servings : Int) (scale_factor units : String) : String :=
  "\n    Generate a full recipe for \""
    ++ dish_name
    ++ "\" using these ingredients: "
    ++ pyJoin ", " normalized_ingredients
    ++ "\n    Provide ingredients list, step-by-step instructions, prep time, cook time, and nutritional info if possible.\n    Scale for "
    ++ (⟨intData servings⟩ : String)
    ++ " servings, adjust quantities by factor "
    ++ scale_factor
    ++ ".\n    Use "
    ++ units
    ++ " units (default metric, convert if needed).\n    Include options for substitutions.\n    Output as JSON with keys: \"ingredients\" (list of strings), \"steps\" (list of strings), \"prep_time\", \"cook_time\", \"substitutions\" (dict of ingredient: alternatives).\n\n    Example output:\n    \x7b\n        \"ingredients\": [\"500g chicken\", \"2 onions\"],\n        \"steps\": [\"Chop onions\", \"Cook chicken\"],\n        \"prep_time\": \"15 min\",\n        \"cook_time\": \"30 min\",\n        \"substitutions\": \x7b\"chicken\": \"tofu for vegetarian\"\x7d\n    \x7d\n    "

/-- Stage `normalize_ingredients` (src/app.py:49-66).  The `generate_content`
call is *outside* the `try:` block, so its exceptions propagate; only the
`.text` access and the parse are guarded. -/
def normalize_ingredients (ingredients_text : String)
    (gen : String → Except ServiceError GenResponse) : Except ServiceError JValue :=
  match gen (buildNormalizePrompt ingredients_text) with
  | .error e => .error e
  | .ok response =>
    match response.text with
    | none => .ok (JValue.arr [])
    | some t => .ok (parseField t "normalized_ingredients" (JValue.arr []))

/-- Stage `suggest_dishes` (src/app.py:68-91). -/
def suggest_dishes (normalized_ingredients : List String)
    (gen : String → Except ServiceError GenResponse) : Except ServiceError JValue :=
  match gen (buildSuggestPrompt normalized_ingredients) with
  | .error e => .error e
  | .ok response =>
    match response.text with
    | none => .ok (JValue.arr [])
    | some t => .ok (parseField t "dishes" (JValue.arr []))

/-- Stage `generate_recipe` (src/app.py:93-117).  `scale_factor` is a Python
float; it enters the program only via string interpolation, so it is
modelled by its rendered text. -/
def generate_recipe (dish_name : String) (normalized_ingredients : List String)
    (servings : Int) (scale_factor units : String)
    (gen : String → Except ServiceError GenResponse) : Except ServiceError JValue :=
  match gen (buildGeneratePrompt dish_name normalized_ingredients servings scale_factor units) with
  | .error e => .error e
  | .ok response =>
    match response.text with
    | none => .ok (JValue.obj [])
    | some t => .ok (parseWhole t (JValue.obj []))

/-- Operation `save_recipe` (src/app.py:119-127) as a function of the store file's
prior content (`none` = file absent).  Result: the file's content after the
call, plus the exception escaping the call, if any (`json.load` failing
raises a `JSONDecodeError`, a `ValueError`; `.append` on a non-list raises
`AttributeError`; in both cases the write never happens, so the content is
unchanged). -/
def save_recipe (recipe : JValue) (file : Option String) : Option String × Option PyErr :=
  match file with
  | none => (some (dump (JValue.arr [recipe])), none)
  | some content =>
    match pyLoads content with
    | none => (some content, some PyErr.valueError)
    | some (JValue.arr recipes) => (some (dump (JValue.arr (recipes ++ [recipe]))), none)
    | some _ => (some content, some PyErr.attributeError)

/-- The character after a parsed fragment must not extend it: a following
digit would be absorbed by the number lexer.  Holds for every separator the
serializer emits and for the empty rest. -/
def restOk : List Char → Prop
  | [] => True
  | c :: _ => isDigitChar c = false

-- Substring machinery for the prompt-content properties.

/-- Whether `big` starts with `small`. -/
def startsList : List Char → List Char → Bool
  | _, [] => true
  | [], _ :: _ => false
  | b :: bs, s :: ss => b = s && startsList bs ss

/-- Whether `small` occurs contiguously inside `big`. -/
def subList : List Char → List Char → Bool
  | [], s => s.isEmpty
  | b :: bs, s => startsList (b :: bs) s || subList bs s

/-- Proposition that `small` occurs verbatim inside `big`. -/
def strContains (big small : String) : Prop :=
  ∃ pre post, big.data = pre ++ small.data ++ post

-- =========================================================================
-- Smoke tests: the model is executable on concrete inputs.
-- =========================================================================

example : pyLoads "null" = some JValue.null := rfl
example : pyLoads " [1, -25, \"a\"] " = some (JValue.arr [JValue.num 1, JValue.num (-25), JValue.str "a"]) := rfl
example : pyLoads "\x7b\"a\": 1\x7d" = some (JValue.obj [("a", JValue.num 1)]) := rfl
example : pyLoads "not json" = none := rfl
example : pyLoads "" = none := rfl
example : pyLoads "[1" = none := rfl
example : pyLoads "\x7b\"a\": 1, \"a\": 2, \"b\": 3\x7d" = some (JValue.obj [("a", JValue.num 2), ("b", JValue.num 3)]) := rfl
example : pyLoads "\"a\\u0041\\n\"" = some (JValue.str "aA\n") := rfl
example : pyLoads "01" = none := rfl
example : wf (JValue.obj [("a", JValue.num 1), ("b", JValue.arr [])]) = true := by
  simp [wf, wfMembers, wfItems, keysOk, freshKey]
example : wf (JValue.obj [("a", JValue.num 1), ("a", JValue.num 2)]) = false := by
  simp [wf, wfMembers, keysOk, freshKey]
example :
    dumpData (JValue.arr [JValue.null, JValue.str "a"]) = "[null, \"a\"]".data := by
  simp [dumpData, dumpItems, escList, escChar]
example :
    normalize_ingredients "eggs" (fun _ => .ok ⟨some " \x7b\"normalized_ingredients\": [\"2 eggs\"]\x7d "⟩)
      = .ok (JValue.arr [JValue.str "2 eggs"]) := rfl
example :
    generate_recipe "D" ["x"] 4 "1.0" "metric" (fun _ => .error ServiceError.unreachable)
      = .error ServiceError.unreachable := rfl

-- =========================================================================
-- Character and digit lemmas
-- =========================================================================

theorem charToNat_inj {a b : Char} (h : a.toNat = b.toNat) : a = b :=
  Char.eq_of_val_eq (UInt32.ext h)

theorem ne_of_toNat_ne {a b : Char} (h : a.toNat ≠ b.toNat) : a ≠ b :=
  fun he => h (congrArg Char.toNat he)

theorem charOfNat_toNat {n : Nat} (h : n < 55296) : (Char.ofNat n).toNat = n := by
  unfold Char.ofNat
  split
  · rfl
  · next h2 => exact absurd (Or.inl h) h2

theorem digChar_toNat {d : Nat} (h : d < 10) : (digChar d).toNat = 48 + d :=
  charOfNat_toNat (by omega)

theorem isDigitChar_digChar {d : Nat} (h : d < 10) : isDigitChar (digChar d) = true := by
  simp [isDigitChar, digChar_toNat h]; omega

theorem isDigitChar_toNat {c : Char} (h : isDigitChar c = true) :
    48 ≤ c.toNat ∧ c.toNat ≤ 57 := by
  simpa [isDigitChar] using h

theorem isJsonWs_eq_false {c : Char} (h : 33 ≤ c.toNat) : isJsonWs c = false := by
  simp [isJsonWs]; omega

theorem isDigit_not_ws {c : Char} (h : isDigitChar c = true) : isJsonWs c = false :=
  isJsonWs_eq_false (by have := isDigitChar_toNat h; omega)

theorem digChar_ne_zeroChar {d : Nat} (h1 : d < 10) (h2 : d ≠ 0) : digChar d ≠ '0' := by
  apply ne_of_toNat_ne
  rw [digChar_toNat h1]
  have h0 : ('0' : Char).toNat = 48 := rfl
  omega

-- =========================================================================
-- Decimal printing of naturals and integers
-- =========================================================================

theorem digitsToNat_concat (l : List Char) (c : Char) :
    digitsToNat (l ++ [c]) = 10 * digitsToNat l + (c.toNat - 48) := by
  simp [digitsToNat, List.foldl_append]

theorem natDigitsAux_spec :
    ∀ f n, n < f →
      natDigitsAux f n ≠ [] ∧
      (∀ c ∈ natDigitsAux f n, isDigitChar c = true) ∧
      digitsToNat (natDigitsAux f n) = n := by
  intro f
  induction f with
  | zero => intro n h; omega
  | succ f ih =>
    intro n h
    by_cases h10 : n < 10
    · refine ⟨by simp [natDigitsAux, h10], ?_, ?_⟩
      · intro c hc
        simp [natDigitsAux, h10] at hc
        subst hc
        exact isDigitChar_digChar h10
      · simp [natDigitsAux, h10, digitsToNat, digChar_toNat h10]
    · have hdiv : n / 10 < f := by omega
      obtain ⟨hne, hdig, hval⟩ := ih (n / 10) hdiv
      refine ⟨by simp [natDigitsAux, h10], ?_, ?_⟩
      · intro c hc
        simp [natDigitsAux, h10] at hc
        rcases hc with hc | hc
        · exact hdig c hc
        · subst hc; exact isDigitChar_digChar (by omega)
      · simp only [natDigitsAux, h10, if_false]
        rw [digitsToNat_concat, hval, digChar_toNat (by omega : n % 10 < 10)]
        omega

theorem natStr_ne_nil (n : Nat) : natStr n ≠ [] :=
  (natDigitsAux_spec (n + 1) n (by omega)).1

theorem natStr_digits (n : Nat) : ∀ c ∈ natStr n, isDigitChar c = true :=
  (natDigitsAux_spec (n + 1) n (by omega)).2.1

theorem digitsToNat_natStr (n : Nat) : digitsToNat (natStr n) = n :=
  (natDigitsAux_spec (n + 1) n (by omega)).2.2

theorem natDigitsAux_no_leading_zero :
    ∀ f n, n < f → 1 ≤ n → ∀ ds, natDigitsAux f n ≠ '0' :: ds := by
  intro f
  induction f with
  | zero => intro n h; omega
  | succ f ih =>
    intro n h h1 ds he
    by_cases h10 : n < 10
    · simp [natDigitsAux, h10] at he
      exact digChar_ne_zeroChar h10 (by omega) he.1
    · simp only [natDigitsAux, h10, if_false] at he
      have hdiv : n / 10 < f := by omega
      obtain ⟨c, t, hct⟩ :=
        List.exists_cons_of_ne_nil (natDigitsAux_spec f (n / 10) hdiv).1
      rw [hct] at he
      simp at he
      exact ih (n / 10) hdiv (by omega) t (by rw [hct, he.1])

theorem natStr_no_leading_zero (n : Nat) (h1 : 1 ≤ n) (ds : List Char) :
    natStr n ≠ '0' :: ds :=
  natDigitsAux_no_leading_zero (n + 1) n (by omega) h1 ds

-- =========================================================================
-- Lexer-level lemmas: whitespace skipping and the number lexer
-- =========================================================================

theorem takeWhile_append_all {p : Char → Bool} :
    ∀ (l1 l2 : List Char), (∀ c ∈ l1, p c = true) →
      (match l2 with | [] => True | c :: _ => p c = false) →
      (l1 ++ l2).takeWhile p = l1 := by
  intro l1
  induction l1 with
  | nil =>
    intro l2 _ h2
    cases l2 with
    | nil => rfl
    | cons c t => simp [List.takeWhile_cons, h2]
  | cons a l1 ih =>
    intro l2 h1 h2
    have ha : p a = true := h1 a (by simp)
    simp [List.takeWhile_cons, ha]
    exact ih l2 (fun c hc => h1 c (by simp [hc])) h2

theorem skipWs_cons_not {c : Char} {l : List Char} (h : isJsonWs c = false) :
    skipWs (c :: l) = c :: l := by
  simp [skipWs, h]

theorem skipWs_cons_ws {c : Char} {l : List Char} (h : isJsonWs c = true) :
    skipWs (c :: l) = skipWs l := by
  simp [skipWs, h]

theorem skipWs_append_ws :
    ∀ {pre : List Char}, (∀ w ∈ pre, isJsonWs w = true) →
      ∀ l, skipWs (pre ++ l) = skipWs l := by
  intro pre
  induction pre with
  | nil => intro _ l; rfl
  | cons a pre ih =>
    intro h l
    have ha : isJsonWs a = true := h a (by simp)
    simp only [List.cons_append, skipWs_cons_ws ha]
    exact ih (fun w hw => h w (by simp [hw])) l

theorem restOk_cons_not_digit {c : Char} {l : List Char} (h : isDigitChar c = false) :
    restOk (c :: l) :=
  h

theorem restOk_of_toNat {c : Char} {l : List Char} (h : c.toNat < 48 ∨ 57 < c.toNat) :
    restOk (c :: l) := by
  show isDigitChar c = false
  simp [isDigitChar]
  omega

theorem parseNatNum_natStr (n : Nat) (rest : List Char) (hrest : restOk rest) :
    parseNatNum (natStr n ++ rest) = some (n, rest) := by
  have htake : (natStr n ++ rest).takeWhile isDigitChar = natStr n := by
    apply takeWhile_append_all _ _ (natStr_digits n)
    cases rest with
    | nil => trivial
    | cons c t => exact hrest
  obtain ⟨d, ds, hds⟩ := List.exists_cons_of_ne_nil (natStr_ne_nil n)
  have hnot : ¬(d = '0' ∧ ds ≠ []) := by
    rintro ⟨rfl, hne⟩
    by_cases h0 : n = 0
    · subst h0
      have h01 : natStr 0 = ['0'] := rfl
      rw [h01] at hds
      injection hds with _ h2
      exact hne h2.symm
    · exact natStr_no_leading_zero n (by omega) ds hds
  have hval : digitsToNat (d :: ds) = n := by rw [← hds]; exact digitsToNat_natStr n
  have hdrop : ((d :: ds) ++ rest).drop (d :: ds).length = rest := List.drop_left _ _
  rw [hds] at htake
  simp only [parseNatNum, hds, htake]
  rw [if_neg hnot, hval, hdrop]

-- =========================================================================
-- String escaping round-trip
-- =========================================================================

theorem hexDigVal_hexDig {d : Nat} (h : d < 16) : hexDigVal (hexDig d) = some d := by
  interval_cases d <;> decide

theorem charOfNat_toNat_self {c : Char} (h : c.toNat < 55296) : Char.ofNat c.toNat = c :=
  charToNat_inj (charOfNat_toNat h)

theorem parseStrBody_escList :
    ∀ cs rest, parseStrBody (escList cs ++ '"' :: rest) = some (cs, rest) := by
  intro cs
  induction cs with
  | nil =>
    intro rest
    rw [show escList [] ++ '"' :: rest = '"' :: rest from rfl, parseStrBody.eq_def]
    simp
  | cons c cs ih =>
    intro rest
    by_cases h1 : c = '"'
    · subst h1
      simp only [escList, escChar, if_pos rfl, List.cons_append, List.append_assoc]
      rw [parseStrBody.eq_def]
      simp [ih]
    · by_cases h2 : c = '\\'
      · subst h2
        simp [escList, escChar]
        rw [parseStrBody.eq_def]
        simp [ih]
      · by_cases h3 : c = '\n'
        · subst h3
          simp [escList, escChar]
          rw [parseStrBody.eq_def]
          simp [ih]
        · by_cases h4 : c = '\t'
          · subst h4
            simp [escList, escChar]
            rw [parseStrBody.eq_def]
            simp [ih]
          · by_cases h5 : c = '\r'
            · subst h5
              simp [escList, escChar]
              rw [parseStrBody.eq_def]
              simp [ih]
            · by_cases h6 : c = '\x08'
              · subst h6
                simp [escList, escChar]
                rw [parseStrBody.eq_def]
                simp [ih]
              · by_cases h7 : c = '\x0c'
                · subst h7
                  simp [escList, escChar]
                  rw [parseStrBody.eq_def]
                  simp [ih]
                · by_cases h8 : c.toNat < 32
                  · have e1 : hexDigVal '0' = some 0 := by decide
                    have e2 : hexDigVal (hexDig (c.toNat / 16)) = some (c.toNat / 16) :=
                      hexDigVal_hexDig (by omega)
                    have e3 : hexDigVal (hexDig (c.toNat % 16)) = some (c.toNat % 16) :=
                      hexDigVal_hexDig (by omega)
                    have hc : Char.ofNat (16 * (c.toNat / 16) + c.toNat % 16) = c := by
                      rw [Nat.div_add_mod]
                      exact charOfNat_toNat_self (by omega)
                    have hlt : 16 * (c.toNat / 16) + c.toNat % 16 < 55296 := by
                      rw [Nat.div_add_mod]; omega
                    simp [escList, escChar, h1, h2, h3, h4, h5, h6, h7, h8]
                    rw [parseStrBody.eq_def]
                    simp [e1, e2, e3, hlt, hc, ih]
                  · simp [escList, escChar, h1, h2, h3, h4, h5, h6, h7, h8]
                    rw [parseStrBody.eq_def]
                    simp [h1, h2, h8, ih]

-- =========================================================================
-- parseVal dispatch lemmas
-- =========================================================================

theorem parseVal_congr {input input' : List Char} (h : skipWs input = skipWs input') :
    ∀ f, parseVal f input = parseVal f input' := by
  intro f
  cases f with
  | zero => rfl
  | succ f => simp only [parseVal, h]

theorem parseVal_append_ws {pre : List Char} (h : ∀ w ∈ pre, isJsonWs w = true)
    (f : Nat) (l : List Char) : parseVal f (pre ++ l) = parseVal f l :=
  parseVal_congr (skipWs_append_ws h l) f

theorem digit_head_ne {c : Char} (h : isDigitChar c = true) {w : Char}
    (hw : w.toNat < 48 ∨ 57 < w.toNat) : c ≠ w := by
  have := isDigitChar_toNat h
  exact ne_of_toNat_ne (by omega)

theorem parseVal_digit {c : Char} (h : isDigitChar c = true) (f : Nat) (rest : List Char) :
    parseVal (f + 1) (c :: rest) =
      match parseNatNum (c :: rest) with
      | some (m, r) => some (JValue.num (m : Int), r)
      | none => none := by
  have hws := isDigit_not_ws h
  simp only [parseVal, skipWs_cons_not hws]
  rw [if_neg (digit_head_ne h (by decide)),
      if_neg (digit_head_ne h (by decide)),
      if_neg (digit_head_ne h (by decide)),
      if_neg (digit_head_ne h (by decide)),
      if_neg (digit_head_ne h (by decide)),
      if_neg (digit_head_ne h (by decide)),
      if_neg (digit_head_ne h (by decide)),
      if_pos h]

theorem parseVal_minus (f : Nat) (rest : List Char) :
    parseVal (f + 1) ('-' :: rest) =
      match parseNatNum rest with
      | some (m, r) => some (JValue.num (-(m : Int)), r)
      | none => none := by
  simp only [parseVal, skipWs_cons_not (by decide : isJsonWs '-' = false)]
  simp [lbrace]

-- =========================================================================
-- Serializer head and length facts
-- =========================================================================

theorem dumpData_head :
    ∀ v : JValue, ∃ c t, dumpData v = c :: t ∧ isJsonWs c = false ∧ c ≠ ']' ∧ c ≠ rbrace := by
  intro v
  cases v with
  | null => exact ⟨'n', ['u', 'l', 'l'], by simp [dumpData], by decide, by decide, by decide⟩
  | bool b =>
    cases b with
    | true => exact ⟨'t', ['r', 'u', 'e'], by simp [dumpData], by decide, by decide, by decide⟩
    | false => exact ⟨'f', ['a', 'l', 's', 'e'], by simp [dumpData], by decide, by decide, by decide⟩
  | num n =>
    by_cases hn : n < 0
    · refine ⟨'-', natStr n.natAbs, ?_, by decide, by decide, by decide⟩
      simp [dumpData, intData, hn]
    · obtain ⟨d, ds, hds⟩ := List.exists_cons_of_ne_nil (natStr_ne_nil n.toNat)
      have hd : isDigitChar d = true := natStr_digits n.toNat d (by rw [hds]; simp)
      refine ⟨d, ds, ?_, isDigit_not_ws hd, digit_head_ne hd (by decide),
        digit_head_ne hd (by decide)⟩
      simp [dumpData, intData, hn, hds]
  | str s =>
    exact ⟨'"', escList s.data ++ ['"'], by simp [dumpData], by decide, by decide, by decide⟩
  | arr xs =>
    cases xs with
    | nil => exact ⟨'[', [']'], by simp [dumpData], by decide, by decide, by decide⟩
    | cons x xs =>
      exact ⟨'[', dumpItems x xs ++ [']'], by simp [dumpData], by decide, by decide, by decide⟩
  | obj kvs =>
    cases kvs with
    | nil => exact ⟨lbrace, [rbrace], by simp [dumpData], by decide, by decide, by decide⟩
    | cons kv kvs =>
      exact ⟨lbrace, dumpMembers kv kvs ++ [rbrace], by simp [dumpData], by decide, by decide, by decide⟩

theorem dumpData_length_pos (v : JValue) : 1 ≤ (dumpData v).length := by
  obtain ⟨c, t, h, -⟩ := dumpData_head v
  simp [h]

theorem dumpItems_len_ge_mem :
    ∀ (xs : List JValue) (x y : JValue), y ∈ x :: xs →
      (dumpData y).length ≤ (dumpItems x xs).length := by
  intro xs
  induction xs with
  | nil =>
    intro x y hy
    simp at hy
    subst hy
    simp [dumpItems]
  | cons z zs ih =>
    intro x y hy
    simp [dumpItems]
    rcases List.mem_cons.mp hy with hy | hy
    · subst hy; omega
    · have := ih z y hy
      omega

theorem dumpItems_len_ge_count :
    ∀ (xs : List JValue) (x : JValue), (x :: xs).length ≤ (dumpItems x xs).length := by
  intro xs
  induction xs with
  | nil => intro x; simpa [dumpItems] using dumpData_length_pos x
  | cons z zs ih =>
    intro x
    have h1 := dumpData_length_pos x
    have h2 := ih z
    simp [dumpItems] at h2 ⊢
    omega

theorem dumpMembers_len_ge_mem :
    ∀ (kvs : List (String × JValue)) (kv y : String × JValue), y ∈ kv :: kvs →
      (dumpData y.2).length ≤ (dumpMembers kv kvs).length := by
  intro kvs
  induction kvs with
  | nil =>
    intro kv y hy
    simp at hy
    subst hy
    obtain ⟨k, v⟩ := y
    simp [dumpMembers]
  | cons z zs ih =>
    intro kv y hy
    obtain ⟨k, v⟩ := kv
    simp [dumpMembers]
    rcases List.mem_cons.mp hy with hy | hy
    · subst hy; simp; omega
    · have := ih z y hy
      omega

theorem dumpMembers_len_ge_count :
    ∀ (kvs : List (String × JValue)) (kv : String × JValue),
      (kv :: kvs).length ≤ (dumpMembers kv kvs).length := by
  intro kvs
  induction kvs with
  | nil =>
    intro kv
    obtain ⟨k, v⟩ := kv
    have := dumpData_length_pos v
    simp [dumpMembers]
    omega
  | cons z zs ih =>
    intro kv
    obtain ⟨k, v⟩ := kv
    have h1 := dumpData_length_pos v
    have h2 := ih z
    simp [dumpMembers] at h2 ⊢
    omega

-- =========================================================================
-- Duplicate-key folding (Python dict construction)
-- =========================================================================

theorem freshKey_mem {k : String} :
    ∀ {l : List (String × JValue)}, freshKey k l = true →
      ∀ {k' : String} {v' : JValue}, (k', v') ∈ l → k' ≠ k := by
  intro l
  induction l with
  | nil => intro _ k' v' h; simp at h
  | cons a l ih =>
    obtain ⟨ka, va⟩ := a
    intro h k' v' hm
    simp only [freshKey] at h
    by_cases hk : ka = k
    · simp [hk] at h
    · rw [if_neg hk] at h
      rcases List.mem_cons.mp hm with he | hm'
      · rw [Prod.mk.injEq] at he
        rw [he.1]
        exact hk
      · exact ih h hm'

theorem objInsert_fresh {k : String} {v : JValue} :
    ∀ {l}, freshKey k l = true → objInsert l k v = l ++ [(k, v)] := by
  intro l
  induction l with
  | nil => intro _; rfl
  | cons a l ih =>
    obtain ⟨ka, va⟩ := a
    intro h
    simp only [freshKey] at h
    by_cases hk : ka = k
    · simp [hk] at h
    · rw [if_neg hk] at h
      simp only [objInsert, if_neg hk, ih h, List.cons_append]

theorem keysOk_middle {k : String} {v : JValue} :
    ∀ {l1 l2}, keysOk (l1 ++ (k, v) :: l2) = true → freshKey k l1 = true := by
  intro l1
  induction l1 with
  | nil => intro l2 _; rfl
  | cons a l1 ih =>
    obtain ⟨ka, va⟩ := a
    intro l2 h
    simp only [List.cons_append, keysOk, Bool.and_eq_true] at h
    obtain ⟨hfresh, hrest⟩ := h
    have hka : ka ≠ k := by
      have hne : k ≠ ka :=
        freshKey_mem hfresh (show (k, v) ∈ l1 ++ (k, v) :: l2 from by simp)
      exact hne.symm
    simp only [freshKey, if_neg hka]
    exact ih hrest

theorem dedupAux_id :
    ∀ (ps acc : List (String × JValue)), keysOk (acc ++ ps) = true →
      dedupAux acc ps = acc ++ ps := by
  intro ps
  induction ps with
  | nil => intro acc _; simp [dedupAux]
  | cons a ps ih =>
    obtain ⟨k, v⟩ := a
    intro acc h
    have hfresh : freshKey k acc = true := keysOk_middle h
    simp only [dedupAux]
    rw [objInsert_fresh hfresh]
    have h2 : keysOk ((acc ++ [(k, v)]) ++ ps) = true := by
      rw [List.append_assoc]
      simpa using h
    rw [ih (acc ++ [(k, v)]) h2]
    simp

theorem dedupPairs_id {ps : List (String × JValue)} (h : keysOk ps = true) :
    dedupPairs ps = ps := by
  simpa [dedupPairs] using dedupAux_id ps [] (by simpa using h)

theorem wfItems_mem : ∀ {l : List JValue}, wfItems l = true → ∀ {y}, y ∈ l → wf y = true := by
  intro l
  induction l with
  | nil => intro _ y h; simp at h
  | cons x l ih =>
    intro h y hy
    simp only [wfItems, Bool.and_eq_true] at h
    rcases List.mem_cons.mp hy with he | hm
    · rw [he]; exact h.1
    · exact ih h.2 hm

theorem wfMembers_mem :
    ∀ {l : List (String × JValue)}, wfMembers l = true → ∀ {y}, y ∈ l → wf y.2 = true := by
  intro l
  induction l with
  | nil => intro _ y h; simp at h
  | cons a l ih =>
    obtain ⟨ka, va⟩ := a
    intro h y hy
    simp only [wfMembers, Bool.and_eq_true] at h
    rcases List.mem_cons.mp hy with he | hm
    · rw [he]; exact h.1
    · exact ih h.2 hm

-- =========================================================================
-- Round-trip: parsing what the serializer printed
-- =========================================================================

theorem parseItemsLoop_dump (p : List Char → Option (JValue × List Char)) :
    ∀ (xs : List JValue) (x : JValue),
      (∀ y ∈ x :: xs, ∀ (pre r' : List Char), (∀ w ∈ pre, isJsonWs w = true) → restOk r' →
          p (pre ++ (dumpData y ++ r')) = some (y, r')) →
      ∀ g, (x :: xs).length ≤ g →
      ∀ (pre rest : List Char), (∀ w ∈ pre, isJsonWs w = true) → restOk rest →
        parseItemsLoop p g (pre ++ (dumpItems x xs ++ ']' :: rest)) = some (x :: xs, rest) := by
  intro xs
  induction xs with
  | nil =>
    intro x hp g hg pre rest hpre hrest
    obtain ⟨g, rfl⟩ : ∃ g', g = g' + 1 := ⟨g - 1, by simp at hg; omega⟩
    have hitems : dumpItems x [] = dumpData x := by simp [dumpItems]
    rw [hitems]
    have hcall := hp x (by simp) pre (']' :: rest) hpre
      (by show isDigitChar ']' = false; decide)
    simp only [parseItemsLoop]
    rw [show dumpData x ++ ']' :: rest = dumpData x ++ (']' :: rest) from rfl, hcall]
    simp [skipWs_cons_not (by decide : isJsonWs ']' = false)]
  | cons y ys ih =>
    intro x hp g hg pre rest hpre hrest
    obtain ⟨g, rfl⟩ : ∃ g', g = g' + 1 := ⟨g - 1, by simp at hg; omega⟩
    have hitems : dumpItems x (y :: ys) = dumpData x ++ ',' :: ' ' :: dumpItems y ys := by
      simp [dumpItems]
    rw [hitems]
    have hassoc : (dumpData x ++ ',' :: ' ' :: dumpItems y ys) ++ ']' :: rest
        = dumpData x ++ (',' :: ' ' :: (dumpItems y ys ++ ']' :: rest)) := by simp
    rw [hassoc]
    have hcall := hp x (by simp) pre (',' :: ' ' :: (dumpItems y ys ++ ']' :: rest)) hpre
      (by show isDigitChar ',' = false; decide)
    have hrec := ih y (fun z hz => hp z (by simp [hz])) g
      (by simp at hg ⊢; omega) [' '] rest (by intro w hw; simp at hw; subst hw; decide) hrest
    have hrec' : parseItemsLoop p g (' ' :: (dumpItems y ys ++ ']' :: rest))
        = some (y :: ys, rest) := by simpa using hrec
    simp only [parseItemsLoop]
    rw [hcall]
    simp [skipWs_cons_not (by decide : isJsonWs ',' = false), hrec']

theorem parseMembersLoop_dump (p : List Char → Option (JValue × List Char)) :
    ∀ (kvs : List (String × JValue)) (kv : String × JValue),
      (∀ y ∈ kv :: kvs, ∀ (pre r' : List Char), (∀ w ∈ pre, isJsonWs w = true) → restOk r' →
          p (pre ++ (dumpData y.2 ++ r')) = some (y.2, r')) →
      ∀ g, (kv :: kvs).length ≤ g →
      ∀ (pre rest : List Char), (∀ w ∈ pre, isJsonWs w = true) → restOk rest →
        parseMembersLoop p g (pre ++ (dumpMembers kv kvs ++ rbrace :: rest)) = some (kv :: kvs, rest) := by
  intro kvs
  induction kvs with
  | nil =>
    intro kv hp g hg pre rest hpre hrest
    obtain ⟨k, v⟩ := kv
    obtain ⟨g, rfl⟩ : ∃ g', g = g' + 1 := ⟨g - 1, by simp at hg; omega⟩
    have hmem : dumpMembers (k, v) [] = dumpKey k ++ dumpData v := by simp [dumpMembers]
    rw [hmem]
    have hin : pre ++ ((dumpKey k ++ dumpData v) ++ rbrace :: rest)
        = pre ++ ('"' :: (escList k.data ++ '"' :: ':' :: ' ' :: (dumpData v ++ rbrace :: rest))) := by
      simp [dumpKey]
    rw [hin]
    have hcall := hp (k, v) (by simp) [' '] (rbrace :: rest)
      (by intro w hw; simp at hw; subst hw; decide)
      (by show isDigitChar rbrace = false; decide)
    have hcall' : p (' ' :: (dumpData v ++ rbrace :: rest)) = some (v, rbrace :: rest) := by
      simpa using hcall
    simp only [parseMembersLoop]
    rw [skipWs_append_ws hpre]
    rw [skipWs_cons_not (by decide : isJsonWs '"' = false)]
    have hne : rbrace ≠ ',' := by decide
    simp [parseStrBody_escList, skipWs_cons_not (by decide : isJsonWs ':' = false),
          hcall', skipWs_cons_not (by decide : isJsonWs rbrace = false), hne]
  | cons z zs ih =>
    intro kv hp g hg pre rest hpre hrest
    obtain ⟨k, v⟩ := kv
    obtain ⟨g, rfl⟩ : ∃ g', g = g' + 1 := ⟨g - 1, by simp at hg; omega⟩
    have hmem : dumpMembers (k, v) (z :: zs)
        = dumpKey k ++ dumpData v ++ ',' :: ' ' :: dumpMembers z zs := by simp [dumpMembers]
    rw [hmem]
    have hin : pre ++ ((dumpKey k ++ dumpData v ++ ',' :: ' ' :: dumpMembers z zs) ++ rbrace :: rest)
        = pre ++ ('"' :: (escList k.data ++ '"' :: ':' :: ' ' ::
            (dumpData v ++ ',' :: ' ' :: (dumpMembers z zs ++ rbrace :: rest)))) := by
      simp [dumpKey]
    rw [hin]
    have hcall := hp (k, v) (by simp) [' '] (',' :: ' ' :: (dumpMembers z zs ++ rbrace :: rest))
      (by intro w hw; simp at hw; subst hw; decide)
      (by show isDigitChar ',' = false; decide)
    have hcall' : p (' ' :: (dumpData v ++ ',' :: ' ' :: (dumpMembers z zs ++ rbrace :: rest)))
        = some (v, ',' :: ' ' :: (dumpMembers z zs ++ rbrace :: rest)) := by
      simpa using hcall
    have hrec := ih z (fun w hw => hp w (by simp [hw])) g
      (by simp at hg ⊢; omega) [' '] rest (by intro w hw; simp at hw; subst hw; decide) hrest
    have hrec' : parseMembersLoop p g (' ' :: (dumpMembers z zs ++ rbrace :: rest))
        = some (z :: zs, rest) := by simpa using hrec
    simp only [parseMembersLoop]
    rw [skipWs_append_ws hpre]
    rw [skipWs_cons_not (by decide : isJsonWs '"' = false)]
    simp [parseStrBody_escList, skipWs_cons_not (by decide : isJsonWs ':' = false),
          hcall', skipWs_cons_not (by decide : isJsonWs ',' = false), hrec']

theorem parseVal_dumpData_strong :
    ∀ (n : Nat) (v : JValue), sizeOf v ≤ n → wf v = true →
      ∀ f, (dumpData v).length < f → ∀ rest, restOk rest →
        parseVal f (dumpData v ++ rest) = some (v, rest) := by
  intro n
  induction n using Nat.strong_induction_on with
  | _ n ih =>
    intro v hn hwf f hf rest hrest
    obtain ⟨f, rfl⟩ : ∃ f', f = f' + 1 := ⟨f - 1, by have := dumpData_length_pos v; omega⟩
    cases v with
    | null =>
      rw [show dumpData JValue.null ++ rest = 'n' :: 'u' :: 'l' :: 'l' :: rest from by
        simp [dumpData]]
      simp only [parseVal]
      rw [skipWs_cons_not (by decide : isJsonWs 'n' = false)]
      simp
    | bool b =>
      cases b with
      | true =>
        rw [show dumpData (JValue.bool true) ++ rest = 't' :: 'r' :: 'u' :: 'e' :: rest from by
          simp [dumpData]]
        simp only [parseVal]
        rw [skipWs_cons_not (by decide : isJsonWs 't' = false)]
        simp
      | false =>
        rw [show dumpData (JValue.bool false) ++ rest = 'f' :: 'a' :: 'l' :: 's' :: 'e' :: rest from by
          simp [dumpData]]
        simp only [parseVal]
        rw [skipWs_cons_not (by decide : isJsonWs 'f' = false)]
        simp
    | num m =>
      have hd : dumpData (JValue.num m) = intData m := by simp [dumpData]
      rw [hd]
      by_cases hm : m < 0
      · rw [show intData m = '-' :: natStr m.natAbs from by simp [intData, hm]]
        rw [List.cons_append, parseVal_minus]
        rw [parseNatNum_natStr _ _ hrest]
        simp
        rw [abs_of_neg hm]
        omega
      · rw [show intData m = natStr m.toNat from by simp [intData, hm]]
        obtain ⟨d, ds, hds⟩ := List.exists_cons_of_ne_nil (natStr_ne_nil m.toNat)
        have hdig : isDigitChar d = true := natStr_digits m.toNat d (by rw [hds]; simp)
        rw [hds, List.cons_append, parseVal_digit hdig, ← List.cons_append, ← hds]
        rw [parseNatNum_natStr _ _ hrest]
        have hton : ((m.toNat : Nat) : Int) = m := by omega
        simp [hton]
    | str s =>
      have hd : dumpData (JValue.str s) = '"' :: (escList s.data ++ ['"']) := by simp [dumpData]
      rw [hd]
      rw [show ('"' :: (escList s.data ++ ['"'])) ++ rest
          = '"' :: (escList s.data ++ '"' :: rest) from by simp]
      simp only [parseVal]
      rw [skipWs_cons_not (by decide : isJsonWs '"' = false)]
      simp [parseStrBody_escList]
    | arr xs =>
      cases xs with
      | nil =>
        rw [show dumpData (JValue.arr []) ++ rest = '[' :: ']' :: rest from by simp [dumpData]]
        simp only [parseVal]
        rw [skipWs_cons_not (by decide : isJsonWs '[' = false)]
        simp [show skipWs (']' :: rest) = ']' :: rest from
          skipWs_cons_not (by decide : isJsonWs ']' = false)]
      | cons x xs =>
        have hd : dumpData (JValue.arr (x :: xs)) = '[' :: (dumpItems x xs ++ [']']) := by
          simp [dumpData]
        rw [hd] at hf ⊢
        rw [show ('[' :: (dumpItems x xs ++ [']'])) ++ rest
            = '[' :: (dumpItems x xs ++ ']' :: rest) from by simp]
        obtain ⟨c0, t0, hct, hws0, hne0, hne0'⟩ := dumpData_head x
        have ht1 : ∃ t1, dumpItems x xs = c0 :: t1 := by
          cases xs with
          | nil => exact ⟨t0, by simp [dumpItems, hct]⟩
          | cons y ys => exact ⟨t0 ++ ',' :: ' ' :: dumpItems y ys, by simp [dumpItems, hct]⟩
        obtain ⟨t1, ht1⟩ := ht1
        have hwfx : wfItems (x :: xs) = true := by simpa [wf] using hwf
        have hp : ∀ y ∈ x :: xs, ∀ (pre r' : List Char),
            (∀ w ∈ pre, isJsonWs w = true) → restOk r' →
            parseVal f (pre ++ (dumpData y ++ r')) = some (y, r') := by
          intro y hy pre r' hpre hr'
          rw [parseVal_append_ws hpre]
          have hszy : sizeOf y < sizeOf (JValue.arr (x :: xs)) := by
            have h := List.sizeOf_lt_of_mem hy
            simp only [JValue.arr.sizeOf_spec]
            omega
          have hlen := dumpItems_len_ge_mem xs x y hy
          apply ih (sizeOf y) (by omega) y le_rfl (wfItems_mem hwfx hy)
          · simp only [List.length_cons, List.length_append, List.length_singleton] at hf
            omega
          · exact hr'
        have hloop := parseItemsLoop_dump (parseVal f) xs x hp
          ((t1 ++ ']' :: rest).length + 2)
          (by
            have hc := dumpItems_len_ge_count xs x
            rw [ht1] at hc
            simp only [List.length_cons] at hc
            simp only [List.length_append, List.length_cons]
            omega)
          [] rest (by intro w hw; simp at hw) hrest
        have hloop2 : parseItemsLoop (parseVal f) ((t1 ++ ']' :: rest).length + 2)
            (c0 :: (t1 ++ ']' :: rest)) = some (x :: xs, rest) := by
          rw [ht1] at hloop
          simpa using hloop
        have hskip : skipWs (c0 :: (t1 ++ ']' :: rest)) = c0 :: (t1 ++ ']' :: rest) :=
          skipWs_cons_not hws0
        have hloop3 := hloop2
        simp only [List.length_append, List.length_cons] at hloop3
        simp only [parseVal]
        rw [skipWs_cons_not (by decide : isJsonWs '[' = false)]
        simp [ht1, hskip, hne0, hloop2, hloop3]
    | obj kvs =>
      cases kvs with
      | nil =>
        rw [show dumpData (JValue.obj []) ++ rest = lbrace :: rbrace :: rest from by
          simp [dumpData]]
        have hb1 : lbrace ≠ 'n' := by decide
        have hb2 : lbrace ≠ 't' := by decide
        have hb3 : lbrace ≠ 'f' := by decide
        have hb4 : lbrace ≠ '"' := by decide
        have hb5 : lbrace ≠ '[' := by decide
        simp only [parseVal]
        rw [skipWs_cons_not (by decide : isJsonWs lbrace = false)]
        simp [hb1, hb2, hb3, hb4, hb5,
          show skipWs (rbrace :: rest) = rbrace :: rest from
            skipWs_cons_not (by decide : isJsonWs rbrace = false)]
      | cons kv kvs =>
        have hd : dumpData (JValue.obj (kv :: kvs)) = lbrace :: (dumpMembers kv kvs ++ [rbrace]) := by
          simp [dumpData]
        rw [hd] at hf ⊢
        rw [show (lbrace :: (dumpMembers kv kvs ++ [rbrace])) ++ rest
            = lbrace :: (dumpMembers kv kvs ++ rbrace :: rest) from by simp]
        have ht1 : ∃ t1, dumpMembers kv kvs = '"' :: t1 := by
          obtain ⟨k, v⟩ := kv
          cases kvs with
          | nil =>
            exact ⟨escList k.data ++ '"' :: ':' :: ' ' :: dumpData v, by simp [dumpMembers, dumpKey]⟩
          | cons z zs =>
            exact ⟨escList k.data ++ '"' :: ':' :: ' ' ::
              (dumpData v ++ ',' :: ' ' :: dumpMembers z zs), by simp [dumpMembers, dumpKey]⟩
        obtain ⟨t1, ht1⟩ := ht1
        have hwfsplit : keysOk (kv :: kvs) = true ∧ wfMembers (kv :: kvs) = true := by
          have := hwf
          simp only [wf, Bool.and_eq_true] at this
          exact this
        have hp : ∀ y ∈ kv :: kvs, ∀ (pre r' : List Char),
            (∀ w ∈ pre, isJsonWs w = true) → restOk r' →
            parseVal f (pre ++ (dumpData y.2 ++ r')) = some (y.2, r') := by
          intro y hy pre r' hpre hr'
          rw [parseVal_append_ws hpre]
          have hszy : sizeOf y.2 < sizeOf (JValue.obj (kv :: kvs)) := by
            have h := List.sizeOf_lt_of_mem hy
            obtain ⟨yk, yv⟩ := y
            simp only [JValue.obj.sizeOf_spec, Prod.mk.sizeOf_spec] at h ⊢
            omega
          have hlen := dumpMembers_len_ge_mem kvs kv y hy
          apply ih (sizeOf y.2) (by omega) y.2 le_rfl (wfMembers_mem hwfsplit.2 hy)
          · simp only [List.length_cons, List.length_append, List.length_singleton] at hf
            omega
          · exact hr'
        have hloop := parseMembersLoop_dump (parseVal f) kvs kv hp
          ((t1 ++ rbrace :: rest).length + 2)
          (by
            have hc := dumpMembers_len_ge_count kvs kv
            rw [ht1] at hc
            simp only [List.length_cons] at hc
            simp only [List.length_append, List.length_cons]
            omega)
          [] rest (by intro w hw; simp at hw) hrest
        have hloop2 : parseMembersLoop (parseVal f) ((t1 ++ rbrace :: rest).length + 2)
            ('"' :: (t1 ++ rbrace :: rest)) = some (kv :: kvs, rest) := by
          rw [ht1] at hloop
          simpa using hloop
        have hskip : skipWs ('"' :: (t1 ++ rbrace :: rest)) = '"' :: (t1 ++ rbrace :: rest) :=
          skipWs_cons_not (by decide)
        have hdedup : dedupPairs (kv :: kvs) = kv :: kvs := dedupPairs_id hwfsplit.1
        have hqb : ('"' : Char) ≠ rbrace := by decide
        have hb1 : lbrace ≠ 'n' := by decide
        have hb2 : lbrace ≠ 't' := by decide
        have hb3 : lbrace ≠ 'f' := by decide
        have hb4 : lbrace ≠ '"' := by decide
        have hb5 : lbrace ≠ '[' := by decide
        have hloop3 := hloop2
        simp only [List.length_append, List.length_cons] at hloop3
        simp only [parseVal]
        rw [skipWs_cons_not (by decide : isJsonWs lbrace = false)]
        simp [hb1, hb2, hb3, hb4, hb5, ht1, hskip, hqb, hloop2, hloop3, hdedup]

theorem pyLoads_dump {v : JValue} (h : wf v = true) : pyLoads (dump v) = some v := by
  have hdata : (dump v).data = dumpData v := rfl
  unfold pyLoads
  rw [hdata]
  have hparse := parseVal_dumpData_strong (sizeOf v) v le_rfl h ((dumpData v).length + 1)
    (by omega) [] trivial
  rw [List.append_nil] at hparse
  rw [hparse]
  rfl

-- =========================================================================
-- The parser only produces well-formed values
-- =========================================================================

theorem freshKey_objInsert {a k : String} {v : JValue} (hak : k ≠ a) :
    ∀ {l}, freshKey a (objInsert l k v) = freshKey a l := by
  intro l
  induction l with
  | nil => simp [objInsert, freshKey, hak]
  | cons b l ih =>
    obtain ⟨kb, vb⟩ := b
    by_cases hk : kb = k
    · simp [objInsert, hk, freshKey]
    · simp only [objInsert, if_neg hk, freshKey]
      by_cases ha : kb = a
      · simp [ha]
      · simp [ha, ih]

theorem keysOk_objInsert {k : String} {v : JValue} :
    ∀ {l}, keysOk l = true → keysOk (objInsert l k v) = true := by
  intro l
  induction l with
  | nil => intro _; rfl
  | cons b l ih =>
    obtain ⟨kb, vb⟩ := b
    intro h
    simp only [keysOk, Bool.and_eq_true] at h
    by_cases hk : kb = k
    · simp only [objInsert, if_pos hk, keysOk, Bool.and_eq_true]
      exact ⟨h.1, h.2⟩
    · simp only [objInsert, if_neg hk, keysOk, Bool.and_eq_true]
      refine ⟨?_, ih h.2⟩
      rw [freshKey_objInsert (fun he => hk he.symm)]
      exact h.1

theorem wfMembers_objInsert {k : String} {v : JValue} (hv : wf v = true) :
    ∀ {l}, wfMembers l = true → wfMembers (objInsert l k v) = true := by
  intro l
  induction l with
  | nil => intro _; simp [objInsert, wfMembers, hv]
  | cons b l ih =>
    obtain ⟨kb, vb⟩ := b
    intro h
    simp only [wfMembers, Bool.and_eq_true] at h
    by_cases hk : kb = k
    · simp only [objInsert, if_pos hk, wfMembers, Bool.and_eq_true]
      exact ⟨hv, h.2⟩
    · simp only [objInsert, if_neg hk, wfMembers, Bool.and_eq_true]
      exact ⟨h.1, ih h.2⟩

theorem keysOk_dedupAux :
    ∀ (ps acc : List (String × JValue)), keysOk acc = true →
      keysOk (dedupAux acc ps) = true := by
  intro ps
  induction ps with
  | nil => intro acc h; simpa [dedupAux] using h
  | cons a ps ih =>
    obtain ⟨k, v⟩ := a
    intro acc h
    simp only [dedupAux]
    exact ih _ (keysOk_objInsert h)

theorem wfMembers_dedupAux :
    ∀ (ps acc : List (String × JValue)), wfMembers acc = true →
      (∀ y ∈ ps, wf y.2 = true) → wfMembers (dedupAux acc ps) = true := by
  intro ps
  induction ps with
  | nil => intro acc h _; simpa [dedupAux] using h
  | cons a ps ih =>
    obtain ⟨k, v⟩ := a
    intro acc h hv
    simp only [dedupAux]
    exact ih _ (wfMembers_objInsert (hv (k, v) (by simp)) h) (fun y hy => hv y (by simp [hy]))

theorem wf_obj_dedupPairs {ps : List (String × JValue)} (h : ∀ y ∈ ps, wf y.2 = true) :
    wf (JValue.obj (dedupPairs ps)) = true := by
  simp only [wf, Bool.and_eq_true, dedupPairs]
  exact ⟨keysOk_dedupAux ps [] rfl, wfMembers_dedupAux ps [] (by simp [wfMembers]) h⟩

theorem parseItemsLoop_wf (p : List Char → Option (JValue × List Char))
    (hp : ∀ i v r, p i = some (v, r) → wf v = true) :
    ∀ (g : Nat) (input : List Char) (vs : List JValue) (rest : List Char),
      parseItemsLoop p g input = some (vs, rest) → wfItems vs = true := by
  intro g
  induction g with
  | zero => intro input vs rest h; simp [parseItemsLoop] at h
  | succ g ih =>
    intro input vs rest h
    simp only [parseItemsLoop] at h
    split at h
    · exact absurd h (by simp)
    · next v r heq =>
      split at h
      · next rest2 hsk =>
        rcases Option.map_eq_some'.mp h with ⟨q, hq, hmap⟩
        obtain ⟨qs, qr⟩ := q
        injection hmap with hmap1 hmap2
        subst hmap1
        simp only [wfItems, Bool.and_eq_true]
        exact ⟨hp _ _ _ heq, ih rest2 qs qr hq⟩
      · next rest2 hsk =>
        injection h with h1
        injection h1 with hv hr
        subst hv
        simp only [wfItems, Bool.and_eq_true]
        exact ⟨hp _ _ _ heq, by simp [wfItems]⟩
      · exact absurd h (by simp)

theorem parseMembersLoop_wf (p : List Char → Option (JValue × List Char))
    (hp : ∀ i v r, p i = some (v, r) → wf v = true) :
    ∀ (g : Nat) (input : List Char) (ps : List (String × JValue)) (rest : List Char),
      parseMembersLoop p g input = some (ps, rest) → ∀ y ∈ ps, wf y.2 = true := by
  intro g
  induction g with
  | zero => intro input ps rest h; simp [parseMembersLoop] at h
  | succ g ih =>
    intro input ps rest h
    simp only [parseMembersLoop] at h
    split at h
    · exact absurd h (by simp)
    · split at h
      · split at h
        · exact absurd h (by simp)
        · next kcs rest2 hstr =>
          split at h
          · next rest3 hsk =>
            split at h
            · exact absurd h (by simp)
            · next v rest4 heq =>
              split at h
              · next rest5 hsk2 =>
                rcases Option.map_eq_some'.mp h with ⟨q, hq, hmap⟩
                obtain ⟨qs, qr⟩ := q
                injection hmap with hmap1 hmap2
                subst hmap1
                intro y hy
                rcases List.mem_cons.mp hy with hy | hy
                · subst hy; exact hp _ _ _ heq
                · exact ih rest5 qs qr hq y hy
              · next d rest5 hsk2 =>
                split at h
                · injection h with h1
                  injection h1 with hps hr
                  subst hps
                  intro y hy
                  rcases List.mem_cons.mp hy with hy | hy
                  · subst hy; exact hp _ _ _ heq
                  · simp at hy
                · exact absurd h (by simp)
              · exact absurd h (by simp)
          · exact absurd h (by simp)
      · exact absurd h (by simp)

theorem parseVal_wf :
    ∀ (f : Nat) (input : List Char) (v : JValue) (rest : List Char),
      parseVal f input = some (v, rest) → wf v = true := by
  intro f
  induction f with
  | zero => intro input v rest h; simp [parseVal] at h
  | succ f ih =>
    intro input v rest h
    simp only [parseVal] at h
    split at h
    · exact absurd h (by simp)
    · split_ifs at h
      · -- 'n' : null
        split at h
        · injection h with h1
          injection h1 with hv hr
          subst hv
          simp [wf]
        · exact absurd h (by simp)
      · -- 't' : true
        split at h
        · injection h with h1
          injection h1 with hv hr
          subst hv
          simp [wf]
        · exact absurd h (by simp)
      · -- 'f' : false
        split at h
        · injection h with h1
          injection h1 with hv hr
          subst hv
          simp [wf]
        · exact absurd h (by simp)
      · -- '"' : string
        split at h
        · next cs r hstr =>
          injection h with h1
          injection h1 with hv hr
          subst hv
          simp [wf]
        · exact absurd h (by simp)
      · -- '[' : array
        split at h
        · exact absurd h (by simp)
        · split_ifs at h with hd
          · injection h with h1
            injection h1 with hv hr
            subst hv
            simp [wf, wfItems]
          · split at h
            · next vs r hloop =>
              injection h with h1
              injection h1 with hv hr
              subst hv
              have := parseItemsLoop_wf (parseVal f) (fun i w r hw => ih i w r hw) _ _ _ _ hloop
              simp only [wf]
              exact this
            · exact absurd h (by simp)
      · -- lbrace : object
        split at h
        · exact absurd h (by simp)
        · split_ifs at h with hd
          · injection h with h1
            injection h1 with hv hr
            subst hv
            simp [wf, keysOk, wfMembers]
          · split at h
            · next ps r hloop =>
              injection h with h1
              injection h1 with hv hr
              subst hv
              exact wf_obj_dedupPairs
                (parseMembersLoop_wf (parseVal f) (fun i w r hw => ih i w r hw) _ _ _ _ hloop)
            · exact absurd h (by simp)
      · -- '-' : negative number
        split at h
        · injection h with h1
          injection h1 with hv hr
          subst hv
          simp [wf]
        · exact absurd h (by simp)
      · -- digit : number
        split at h
        · injection h with h1
          injection h1 with hv hr
          subst hv
          simp [wf]
        · exact absurd h (by simp)

theorem pyLoads_wf {s : String} {v : JValue} (h : pyLoads s = some v) : wf v = true := by
  unfold pyLoads at h
  split at h
  · next w rest heq =>
    split_ifs at h
    injection h with hv
    subst hv
    exact parseVal_wf _ _ _ _ heq
  · exact absurd h (by simp)

-- =========================================================================
-- Substring machinery
-- =========================================================================

theorem startsList_sound : ∀ (b s : List Char), startsList b s = true → ∃ t, b = s ++ t := by
  intro b
  induction b with
  | nil =>
    intro s h
    cases s with
    | nil => exact ⟨[], rfl⟩
    | cons c cs => simp [startsList] at h
  | cons x b ih =>
    intro s h
    cases s with
    | nil => exact ⟨x :: b, rfl⟩
    | cons c cs =>
      simp only [startsList, Bool.and_eq_true, decide_eq_true_eq] at h
      obtain ⟨t, ht⟩ := ih cs h.2
      exact ⟨t, by rw [h.1, ht]; simp⟩

theorem subList_sound : ∀ (b s : List Char), subList b s = true → ∃ pre post, b = pre ++ s ++ post := by
  intro b
  induction b with
  | nil =>
    intro s h
    simp only [subList, List.isEmpty_iff] at h
    exact ⟨[], [], by simp [h]⟩
  | cons x b ih =>
    intro s h
    simp only [subList, Bool.or_eq_true] at h
    rcases h with h | h
    · obtain ⟨t, ht⟩ := startsList_sound _ _ h
      exact ⟨[], t, by simp [ht]⟩
    · obtain ⟨pre, post, hp⟩ := ih s h
      exact ⟨x :: pre, post, by simp [hp]⟩

theorem strContains_of_subList {big small : String} (h : subList big.data small.data = true) :
    strContains big small := by
  obtain ⟨pre, post, hp⟩ := subList_sound _ _ h
  exact ⟨pre, post, by simpa using hp⟩

theorem strContains_self (x : String) : strContains x x := ⟨[], [], by simp⟩

theorem strContains_left {a : String} (b : String) {k : String} (h : strContains a k) :
    strContains (a ++ b) k := by
  obtain ⟨pre, post, hp⟩ := h
  exact ⟨pre, post ++ b.data, by simp [String.data_append, hp]⟩

theorem strContains_right (a : String) {b k : String} (h : strContains b k) :
    strContains (a ++ b) k := by
  obtain ⟨pre, post, hp⟩ := h
  exact ⟨a.data ++ pre, post, by simp [String.data_append, hp]⟩

theorem strContains_self_mid (a x b : String) : strContains (a ++ x ++ b) x :=
  ⟨a.data, b.data, by simp [String.data_append]⟩

theorem pyJoin_contains {sep : String} :
    ∀ {l : List String} {tok : String}, tok ∈ l → strContains (pyJoin sep l) tok := by
  intro l
  induction l with
  | nil => intro tok h; simp at h
  | cons s l ih =>
    intro tok h
    cases l with
    | nil =>
      simp at h
      subst h
      exact strContains_self tok
    | cons s2 l2 =>
      have hjoin : pyJoin sep (s :: s2 :: l2) = (s ++ sep) ++ pyJoin sep (s2 :: l2) := by
        simp [pyJoin]
      rw [hjoin]
      rcases List.mem_cons.mp h with he | hm
      · subst he
        exact strContains_left _ (strContains_left _ (strContains_self tok))
      · exact strContains_right _ (ih hm)

theorem wfItems_append : ∀ {l1 l2 : List JValue}, wfItems l1 = true → wfItems l2 = true →
    wfItems (l1 ++ l2) = true := by
  intro l1
  induction l1 with
  | nil => intro l2 _ h2; simpa using h2
  | cons x l1 ih =>
    intro l2 h1 h2
    simp only [wfItems, Bool.and_eq_true] at h1
    simp only [List.cons_append, wfItems, Bool.and_eq_true]
    exact ⟨h1.1, ih h1.2 h2⟩

-- =========================================================================
-- Claim theorems
-- =========================================================================

/-- C1 counterexample: the claim says a `ServiceError` from the
generation-endpoint call never raises to the stage's caller.  In the source
the `model.generate_content(prompt)` call sits *outside* the `try:` block
of every stage, so an endpoint failure propagates as an exception: each
stage returns the error rather than its empty/default result. -/
theorem c1_gen_failure_raises :
    normalize_ingredients "eggs, milk" (fun _ => Except.error ServiceError.unreachable)
      = Except.error ServiceError.unreachable ∧
    suggest_dishes ["2 eggs"] (fun _ => Except.error ServiceError.rejected)
      = Except.error ServiceError.rejected ∧
    generate_recipe "Omelette" ["2 eggs"] 4 "1.0" "metric"
        (fun _ => Except.error ServiceError.unreachable)
      = Except.error ServiceError.unreachable :=
  ⟨rfl, rfl, rfl⟩

/-- C1 (amended): a failure of the endpoint call itself (unreachable or
rejected) raises out of every stage unchanged, because the call is outside
the `try:` block; only the "no text in the response" failure mode — which
surfaces when `.text` is accessed inside the `try:` — is converted to the
stage's empty/default result. -/
theorem c1_amended_failure_behaviour (it dn : String) (ings : List String) (sv : Int)
    (sf u : String) (e : ServiceError) :
    (normalize_ingredients it (fun _ => Except.error e) = Except.error e) ∧
    (normalize_ingredients it (fun _ => Except.ok ⟨none⟩) = Except.ok (JValue.arr [])) ∧
    (suggest_dishes ings (fun _ => Except.error e) = Except.error e) ∧
    (suggest_dishes ings (fun _ => Except.ok ⟨none⟩) = Except.ok (JValue.arr [])) ∧
    (generate_recipe dn ings sv sf u (fun _ => Except.error e) = Except.error e) ∧
    (generate_recipe dn ings sv sf u (fun _ => Except.ok ⟨none⟩) = Except.ok (JValue.obj [])) :=
  ⟨rfl, rfl, rfl, rfl, rfl, rfl⟩

/-- C2: the parse step never raises and returns exactly the default value
whenever the (whitespace-trimmed) response text is malformed JSON, the
empty string, a JSON value whose top level is not an object, or an object
lacking the requested field. -/
theorem c2_parseField_total_default (s fieldName : String) (d : JValue)
    (h : pyLoads (pyStrip s) = none ∨ s = "" ∨
         (∃ v, pyLoads (pyStrip s) = some v ∧ isObjVal v = false) ∨
         (∃ kvs, pyLoads (pyStrip s) = some (JValue.obj kvs) ∧
           lookupField kvs fieldName = none)) :
    parseField s fieldName d = d := by
  unfold parseField
  rcases h with h | h | h | h
  · rw [h]
  · subst h
    rw [show pyLoads (pyStrip "") = none from rfl]
  · obtain ⟨v, hv, hobj⟩ := h
    rw [hv]
    cases v <;> simp_all [isObjVal]
  · obtain ⟨kvs, hv, hlk⟩ := h
    rw [hv]
    simp [hlk]

theorem c2_witness : parseField "oops not json" "normalized_ingredients" (JValue.num 7)
    = JValue.num 7 :=
  c2_parseField_total_default _ _ _ (Or.inl rfl)

/-- C6 counterexample: `generate_recipe` with the empty ingredient list and
a response whose top level is a JSON array returns that array, which is not
a (possibly empty-fielded) Recipe record. -/
theorem c6_counterexample :
    generate_recipe "Dish" [] 4 "1.0" "metric" (fun _ => Except.ok ⟨some "[1]"⟩)
      = Except.ok (JValue.arr [JValue.num 1]) ∧
    isObjVal (JValue.arr [JValue.num 1]) = false :=
  ⟨rfl, rfl⟩

/-- C6 (amended): `generate_recipe` called with the empty IngredientList
never raises due to the empty input: whenever the endpoint call returns a
response, the stage returns a value — the parsed JSON value of the
response text, or the empty record when the response has no text or fails
to parse.  (The result is a Recipe-shaped record whenever the response's
top level is an object or parsing fails; a non-object JSON response is
passed through as-is, see C10.) -/
theorem c6_amended (dn : String) (sv : Int) (sf u : String)
    (gen : String → Except ServiceError GenResponse) (resp : GenResponse)
    (h : gen (buildGeneratePrompt dn [] sv sf u) = Except.ok resp) :
    ∃ v, generate_recipe dn [] sv sf u gen = Except.ok v ∧
      ((∃ t, resp.text = some t ∧ pyLoads (pyStrip t) = some v) ∨ v = JValue.obj []) := by
  unfold generate_recipe
  rw [h]
  obtain ⟨txt⟩ := resp
  cases txt with
  | none => exact ⟨JValue.obj [], by simp, Or.inr rfl⟩
  | some t =>
    by_cases hp : ∃ w, pyLoads (pyStrip t) = some w
    · obtain ⟨w, hw⟩ := hp
      refine ⟨w, ?_, Or.inl ⟨t, rfl, hw⟩⟩
      simp [parseWhole, hw]
    · have hn : pyLoads (pyStrip t) = none := by
        cases hpp : pyLoads (pyStrip t) with
        | none => rfl
        | some w => exact absurd ⟨w, hpp⟩ hp
      exact ⟨JValue.obj [], by simp [parseWhole, hn], Or.inr rfl⟩

theorem c6_witness :
    ∃ v, generate_recipe "Dish" [] 4 "1.0" "metric" (fun _ => Except.ok ⟨some "\x7b\x7d"⟩)
        = Except.ok v ∧
      ((∃ t, (GenResponse.mk (some "\x7b\x7d")).text = some t ∧ pyLoads (pyStrip t) = some v) ∨
        v = JValue.obj []) :=
  c6_amended "Dish" 4 "1.0" "metric" (fun _ => Except.ok ⟨some "\x7b\x7d"⟩) ⟨some "\x7b\x7d"⟩ rfl

/-- C8: the parse step on the spec's concrete inputs: the dishes payload is
extracted verbatim, and non-JSON text yields the empty-list default. -/
theorem c8_parse_examples :
    parseField "\x7b\"dishes\": [\x7b\"name\":\"A\",\"description\":\"B\"\x7d]\x7d" "dishes"
        (JValue.arr [])
      = JValue.arr [JValue.obj [("name", JValue.str "A"), ("description", JValue.str "B")]] ∧
    parseField "not json" "dishes" (JValue.arr []) = JValue.arr [] :=
  ⟨rfl, rfl⟩

/-- C9: if the store file exists but holds invalid JSON, `save_recipe`
raises (`json.load` throws a `JSONDecodeError`, a `ValueError`) instead of
applying the silent-default policy, and the file's content is left
unchanged: the write-open only happens after the read succeeded. -/
theorem c9_save_invalid_store (r : JValue) (c : String) (h : pyLoads c = none) :
    save_recipe r (some c) = (some c, some PyErr.valueError) := by
  simp [save_recipe, h]

theorem c9_witness :
    save_recipe (JValue.num 1) (some "oops") = (some "oops", some PyErr.valueError) :=
  c9_save_invalid_store (JValue.num 1) "oops" rfl

/-- C10: a response text whose top level is a JSON array is returned by
`generate_recipe` unchanged — the stage's `return result` does not check
the shape, so even a successful parse need not produce a Recipe record. -/
theorem c10_nonobject_passthrough :
    generate_recipe "Pasta" ["tomato"] 2 "0.5" "imperial"
        (fun _ => Except.ok ⟨some "[\"a\", 3]"⟩)
      = Except.ok (JValue.arr [JValue.str "a", JValue.num 3]) ∧
    isObjVal (JValue.arr [JValue.str "a", JValue.num 3]) = false :=
  ⟨rfl, rfl⟩

/-- C3: for every model response text, `normalize_ingredients` returns the
value of JSON field `normalized_ingredients`, or the empty sequence when
parsing fails, when the parsed top level is not an object (the `.get` call
raises `AttributeError` inside the `try:`), or when the field is absent;
`suggest_dishes` likewise returns field `dishes`; and `generate_recipe`
returns the entire parsed JSON value, or the empty record on parse
failure. -/
theorem c3_stage_results (it dn : String) (ings : List String) (sv : Int) (sf u : String)
    (gen : String → Except ServiceError GenResponse) (tn ts tg : String)
    (hn : gen (buildNormalizePrompt it) = Except.ok ⟨some tn⟩)
    (hs : gen (buildSuggestPrompt ings) = Except.ok ⟨some ts⟩)
    (hg : gen (buildGeneratePrompt dn ings sv sf u) = Except.ok ⟨some tg⟩) :
    (∀ kvs v, pyLoads (pyStrip tn) = some (JValue.obj kvs) →
        lookupField kvs "normalized_ingredients" = some v →
        normalize_ingredients it gen = Except.ok v) ∧
    (∀ kvs, pyLoads (pyStrip tn) = some (JValue.obj kvs) →
        lookupField kvs "normalized_ingredients" = none →
        normalize_ingredients it gen = Except.ok (JValue.arr [])) ∧
    (∀ v, pyLoads (pyStrip tn) = some v → isObjVal v = false →
        normalize_ingredients it gen = Except.ok (JValue.arr [])) ∧
    (pyLoads (pyStrip tn) = none → normalize_ingredients it gen = Except.ok (JValue.arr [])) ∧
    (∀ kvs v, pyLoads (pyStrip ts) = some (JValue.obj kvs) →
        lookupField kvs "dishes" = some v →
        suggest_dishes ings gen = Except.ok v) ∧
    (∀ kvs, pyLoads (pyStrip ts) = some (JValue.obj kvs) →
        lookupField kvs "dishes" = none →
        suggest_dishes ings gen = Except.ok (JValue.arr [])) ∧
    (∀ v, pyLoads (pyStrip ts) = some v → isObjVal v = false →
        suggest_dishes ings gen = Except.ok (JValue.arr [])) ∧
    (pyLoads (pyStrip ts) = none → suggest_dishes ings gen = Except.ok (JValue.arr [])) ∧
    (∀ v, pyLoads (pyStrip tg) = some v → generate_recipe dn ings sv sf u gen = Except.ok v) ∧
    (pyLoads (pyStrip tg) = none →
        generate_recipe dn ings sv sf u gen = Except.ok (JValue.obj [])) := by
  refine ⟨?_, ?_, ?_, ?_, ?_, ?_, ?_, ?_, ?_, ?_⟩
  · intro kvs v h1 h2
    unfold normalize_ingredients
    rw [hn]
    simp [parseField, h1, h2]
  · intro kvs h1 h2
    unfold normalize_ingredients
    rw [hn]
    simp [parseField, h1, h2]
  · intro v h1 h2
    unfold normalize_ingredients
    rw [hn]
    cases v <;> simp_all [parseField, isObjVal]
  · intro h1
    unfold normalize_ingredients
    rw [hn]
    simp [parseField, h1]
  · intro kvs v h1 h2
    unfold suggest_dishes
    rw [hs]
    simp [parseField, h1, h2]
  · intro kvs h1 h2
    unfold suggest_dishes
    rw [hs]
    simp [parseField, h1, h2]
  · intro v h1 h2
    unfold suggest_dishes
    rw [hs]
    cases v <;> simp_all [parseField, isObjVal]
  · intro h1
    unfold suggest_dishes
    rw [hs]
    simp [parseField, h1]
  · intro v h1
    unfold generate_recipe
    rw [hg]
    simp [parseWhole, h1]
  · intro h1
    unfold generate_recipe
    rw [hg]
    simp [parseWhole, h1]

theorem c3_witness :
    normalize_ingredients "eggs"
        (fun _ => Except.ok ⟨some "\x7b\"normalized_ingredients\": [\"2 eggs\"]\x7d"⟩)
      = Except.ok (JValue.arr [JValue.str "2 eggs"]) ∧
    suggest_dishes ["2 eggs"] (fun _ => Except.ok ⟨some "[1]"⟩)
      = Except.ok (JValue.arr []) :=
  ⟨(c3_stage_results "eggs" "D" ["x"] 4 "1.0" "metric"
      (fun _ => Except.ok ⟨some "\x7b\"normalized_ingredients\": [\"2 eggs\"]\x7d"⟩)
      "\x7b\"normalized_ingredients\": [\"2 eggs\"]\x7d"
      "\x7b\"normalized_ingredients\": [\"2 eggs\"]\x7d"
      "\x7b\"normalized_ingredients\": [\"2 eggs\"]\x7d"
      rfl rfl rfl).1
    [("normalized_ingredients", JValue.arr [JValue.str "2 eggs"])]
    (JValue.arr [JValue.str "2 eggs"]) rfl rfl,
   (c3_stage_results "eggs" "D" ["2 eggs"] 4 "1.0" "metric"
      (fun _ => Except.ok ⟨some "[1]"⟩) "[1]" "[1]" "[1]"
      rfl rfl rfl).2.2.2.2.2.2.1
    (JValue.arr [JValue.num 1]) rfl rfl⟩

/-- C4: `save_recipe` reads the existing JSON array (a missing file acts as
the empty array), appends the new record at the end, and rewrites the file;
two sequential saves to an initially absent store yield a two-element array
in save order, and saving `{"b": 2}` to a store containing `[{"a": 1}]`
yields `[{"a": 1}, {"b": 2}]`. -/
theorem c4_save_appends (r r1 r2 : JValue) (c : String) (rs : List JValue)
    (hc : pyLoads c = some (JValue.arr rs))
    (h1 : wf r1 = true) (h2 : wf r2 = true) :
    (save_recipe r (some c) = (some (dump (JValue.arr (rs ++ [r]))), none)) ∧
    (save_recipe r1 none = (some (dump (JValue.arr [r1])), none)) ∧
    (save_recipe r2 (some (dump (JValue.arr [r1])))
        = (some (dump (JValue.arr [r1, r2])), none)) ∧
    (pyLoads (dump (JValue.arr [r1, r2])) = some (JValue.arr [r1, r2])) ∧
    ((save_recipe (JValue.obj [("b", JValue.num 2)]) (some "[\x7b\"a\": 1\x7d]")).2 = none ∧
      ∃ s2, (save_recipe (JValue.obj [("b", JValue.num 2)]) (some "[\x7b\"a\": 1\x7d]")).1
          = some s2 ∧
        pyLoads s2
          = some (JValue.arr [JValue.obj [("a", JValue.num 1)],
              JValue.obj [("b", JValue.num 2)]])) := by
  have hw1 : wf (JValue.arr [r1]) = true := by
    simp [wf, wfItems, h1]
  have hw12 : wf (JValue.arr [r1, r2]) = true := by
    simp [wf, wfItems, h1, h2]
  refine ⟨?_, rfl, ?_, pyLoads_dump hw12, ?_, ?_⟩
  · simp [save_recipe, hc]
  · simp [save_recipe, pyLoads_dump hw1]
  · rfl
  · refine ⟨dump (JValue.arr [JValue.obj [("a", JValue.num 1)],
      JValue.obj [("b", JValue.num 2)]]), ?_, ?_⟩
    · rfl
    · apply pyLoads_dump
      simp [wf, wfItems, wfMembers, keysOk, freshKey]

theorem c4_witness :
    save_recipe (JValue.num 7) (some "[]")
      = (some (dump (JValue.arr ([] ++ [JValue.num 7]))), none) :=
  (c4_save_appends (JValue.num 7) JValue.null JValue.null "[]" [] rfl
    (by simp [wf]) (by simp [wf])).1

/-- C5: a Recipe value produced by `generate_recipe`, persisted with
`save_recipe` into a store holding a JSON array (or nothing), reloads as
the store's last element, equal to the in-memory value that was saved. -/
theorem c5_persist_reload_roundtrip (dn : String) (ings : List String) (sv : Int)
    (sf u : String) (gen : String → Except ServiceError GenResponse) (t : String)
    (r : JValue) (c : String) (rs : List JValue)
    (hg : gen (buildGeneratePrompt dn ings sv sf u) = Except.ok ⟨some t⟩)
    (hr : generate_recipe dn ings sv sf u gen = Except.ok r)
    (hstore : pyLoads c = some (JValue.arr rs)) :
    ∃ s', save_recipe r (some c) = (some s', none) ∧
      ∃ vs, pyLoads s' = some (JValue.arr vs) ∧ vs.getLast? = some r := by
  have hwr : wf r = true := by
    unfold generate_recipe at hr
    rw [hg] at hr
    simp only [Except.ok.injEq] at hr
    subst hr
    unfold parseWhole
    split
    · next v hv => exact pyLoads_wf hv
    · simp [wf, keysOk, wfMembers]
  have hwrs : wfItems rs = true := by
    have hws := pyLoads_wf hstore
    simpa [wf] using hws
  have hwall : wf (JValue.arr (rs ++ [r])) = true := by
    simp only [wf]
    exact wfItems_append hwrs (by simp [wfItems, hwr])
  refine ⟨dump (JValue.arr (rs ++ [r])), ?_, rs ++ [r], pyLoads_dump hwall, ?_⟩
  · simp [save_recipe, hstore]
  · exact List.getLast?_concat _

theorem c5_witness :
    ∃ s', save_recipe (JValue.obj [("a", JValue.num 1)]) (some "[]") = (some s', none) ∧
      ∃ vs, pyLoads s' = some (JValue.arr vs) ∧
        vs.getLast? = some (JValue.obj [("a", JValue.num 1)]) :=
  c5_persist_reload_roundtrip "Dish" ["x"] 4 "1.0" "metric"
    (fun _ => Except.ok ⟨some "\x7b\"a\": 1\x7d"⟩) "\x7b\"a\": 1\x7d"
    (JValue.obj [("a", JValue.num 1)]) "[]" [] rfl rfl rfl

/-- C7: each prompt builder is a pure deterministic function of its inputs,
and the produced prompt contains every supplied ingredient token verbatim
as well as the requested output-shape JSON keys verbatim
(`normalized_ingredients`; `dishes`/`name`/`description`;
`ingredients`/`steps`/`prep_time`/`cook_time`/`substitutions`). -/
theorem c7_prompt_contents (it dn : String) (ings : List String) (sv : Int) (sf u : String)
    (tok : String) (htok : tok ∈ ings) :
    (buildNormalizePrompt it = buildNormalizePrompt it ∧
     buildSuggestPrompt ings = buildSuggestPrompt ings ∧
     buildGeneratePrompt dn ings sv sf u = buildGeneratePrompt dn ings sv sf u) ∧
    strContains (buildNormalizePrompt it) it ∧
    strContains (buildNormalizePrompt it) "normalized_ingredients" ∧
    strContains (buildSuggestPrompt ings) tok ∧
    strContains (buildSuggestPrompt ings) "dishes" ∧
    strContains (buildSuggestPrompt ings) "name" ∧
    strContains (buildSuggestPrompt ings) "description" ∧
    strContains (buildGeneratePrompt dn ings sv sf u) tok ∧
    strContains (buildGeneratePrompt dn ings sv sf u) "ingredients" ∧
    strContains (buildGeneratePrompt dn ings sv sf u) "steps" ∧
    strContains (buildGeneratePrompt dn ings sv sf u) "prep_time" ∧
    strContains (buildGeneratePrompt dn ings sv sf u) "cook_time" ∧
    strContains (buildGeneratePrompt dn ings sv sf u) "substitutions" := by
  refine ⟨⟨rfl, rfl, rfl⟩, ?_, ?_, ?_, ?_, ?_, ?_, ?_, ?_, ?_, ?_, ?_, ?_⟩
  · unfold buildNormalizePrompt
    exact strContains_self_mid _ _ _
  · unfold buildNormalizePrompt
    exact strContains_left _ (strContains_left _ (strContains_of_subList (by decide)))
  · unfold buildSuggestPrompt
    exact strContains_left _ (strContains_right _ (pyJoin_contains htok))
  · unfold buildSuggestPrompt
    exact strContains_right _ (strContains_of_subList (by decide))
  · unfold buildSuggestPrompt
    exact strContains_right _ (strContains_of_subList (by decide))
  · unfold buildSuggestPrompt
    exact strContains_right _ (strContains_of_subList (by decide))
  · unfold buildGeneratePrompt
    exact strContains_left _ (strContains_left _ (strContains_left _ (strContains_left _
      (strContains_left _ (strContains_left _ (strContains_left _
        (strContains_right _ (pyJoin_contains htok))))))))
  · unfold buildGeneratePrompt
    exact strContains_right _ (strContains_of_subList (by decide))
  · unfold buildGeneratePrompt
    exact strContains_right _ (strContains_of_subList (by decide))
  · unfold buildGeneratePrompt
    exact strContains_right _ (strContains_of_subList (by decide))
  · unfold buildGeneratePrompt
    exact strContains_right _ (strContains_of_subList (by decide))
  · unfold buildGeneratePrompt
    exact strContains_right _ (strContains_of_subList (by decide))

theorem c7_witness :
    strContains (buildSuggestPrompt ["2 eggs", "milk"]) "milk" :=
  (c7_prompt_contents "x" "D" ["2 eggs", "milk"] 4 "1.0" "metric" "milk"
    (by simp)).2.2.2.1
